import Mathlib

/-!
Verification of the core engine of the losh command-line task runner
(loomgmbh/node-losh).  The definitions below are a shallow embedding of
`src/bin/losh.js` (placeholder substitution, interactive form filling,
parameter binding, command registry) and of `Executable.for` from the
legacy script variant (the sequential promise runner).

Conventions of the embedding:
* JavaScript strings are Lean `String`s, scanned as `List Char`.
* A JS value bag (`Object<string,string>` where a key may be absent,
  `null` or `undefined`) is a function `String → Option String`;
  `none` stands for an absent/null/undefined entry.
* JS string truthiness (`if (value)`): truthy iff present and non-empty.
* Promises are `Except`: a rejected promise is `Except.error`, and
  `p.then(f)` does not invoke `f` when `p` is rejected.
-/

namespace Losh

/-- The character class `[a-zA-Z0-9]` of the bag-placeholder pattern in
`Executable.replace` (`src/bin/losh.js` line 759). -/
def isAlnum (c : Char) : Bool := c.isAlphanum

/-- The character class `[^!a-zA-Z0-9]` capturing the decorative
characters around a bag placeholder key. -/
def isDeco (c : Char) : Bool := c != '!' && !c.isAlphanum

/-- Whether the two characters of the input `run` at offset `k` are the
closing braces `\x7d\x7d` of a bag placeholder. -/
def braceAt (run : List Char) (k : Nat) : Bool :=
  decide ((run.drop k).take 2 = ['}', '}'])

/-- Search downward from offset `n` for the greedy (largest) offset at
which the closing braces can match; this models the backtracking of the
greedy group `([^!a-zA-Z0-9]*)` before the literal braces. -/
def greedyAux (run : List Char) : Nat → Option Nat
  | 0 => if braceAt run 0 then some 0 else none
  | k + 1 => if braceAt run (k + 1) then some (k + 1) else greedyAux run k

/-- The greedy split of the decorative run that precedes the closing
braces of a bag placeholder. -/
def greedyK (run : List Char) : Option Nat := greedyAux run run.length

/-- One successful match of the bag-placeholder pattern
`\x7b\x7b([^!a-zA-Z0-9]*)(!?[a-zA-Z0-9]+)([^!a-zA-Z0-9]*)\x7d\x7d`:
the two decoration groups, the key with its required flag stripped, and
the input remaining after the match. -/
structure BagMatch where
  g1 : List Char
  sel : List Char
  required : Bool
  g3 : List Char
  rest : List Char

/-- Complete a bag-placeholder match after the optional `!` marker:
take the alphanumeric key (at least one character), then the greedy
decorative run, then the closing braces. -/
def mkMatch (g1 : List Char) (req : Bool) (t2 : List Char) : Option BagMatch :=
  let key := t2.takeWhile isAlnum
  let t3 := t2.dropWhile isAlnum
  if key = [] then none
  else
    let run := t3.takeWhile isDeco
    let t4 := t3.dropWhile isDeco
    match greedyK run with
    | none => none
    | some k => some ⟨g1, key, req, run.take k, run.drop (k + 2) ++ t4⟩

/-- Match the body of a bag placeholder (everything after the opening
braces): leading decoration group, optional required marker, key,
trailing decoration group, closing braces. -/
def matchBody (t : List Char) : Option BagMatch :=
  let g1 := t.takeWhile isDeco
  let t1 := t.dropWhile isDeco
  if t1.head? = some '!' then mkMatch g1 true t1.tail else mkMatch g1 false t1

/-- Try to match the bag-placeholder pattern at the head of the input
(the match must start with two opening braces). -/
def matchBag : List Char → Option BagMatch
  | a :: b :: t => if a = '{' then if b = '{' then matchBody t else none else none
  | _ => none

/-- JS string truthiness of a bag lookup: truthy iff the key is bound to
a non-empty string. -/
def truthy : Option String → Bool
  | none => false
  | some s => s != ""

/-- The replacement callback of the bag pass (`src/bin/losh.js` lines
760-769): a required key bound to null/undefined sets the absent flag
and yields the empty string; otherwise a truthy value is substituted
between the two decoration groups and a falsy value erases the whole
match. -/
def bagRepl (bag : String → Option String) (m : BagMatch) : List Char × Bool :=
  match bag ⟨m.sel⟩, m.required with
  | none, true => ([], true)
  | v, _ => (if truthy v then m.g1 ++ (v.getD "").data ++ m.g3 else [], false)

/-- Fuelled global scan of the bag pass: at each position either the
placeholder pattern matches (replace and continue after the match) or
one character is copied verbatim.  The fuel is an upper bound on the
number of scan positions; `bagScanL` below always supplies enough. -/
def bagScanF (bag : String → Option String) : Nat → List Char → List Char × Bool
  | _, [] => ([], false)
  | 0, _ :: _ => ([], false)
  | fuel + 1, c :: cs =>
    match matchBag (c :: cs) with
    | some m =>
      let r := bagRepl bag m
      let o := bagScanF bag fuel m.rest
      (r.1 ++ o.1, r.2 || o.2)
    | none =>
      let o := bagScanF bag fuel cs
      (c :: o.1, o.2)

/-- The bag pass of `Executable.replace`: the rewritten text and the
absent flag (`breaked`). -/
def bagScanL (bag : String → Option String) (l : List Char) : List Char × Bool :=
  bagScanF bag l.length l

/-- Try to match the path-macro pattern `@(!?[a-z]+)` at the head of the
input (`src/bin/losh.js` line 778), returning the required flag, the
macro name and the input remaining after the match. -/
def matchPath : List Char → Option (Bool × List Char × List Char)
  | a :: t =>
    if a = '@' then
      if t.head? = some '!' then
        let key := t.tail.takeWhile Char.isLower
        if key = [] then none else some (true, key, t.tail.dropWhile Char.isLower)
      else
        let key := t.takeWhile Char.isLower
        if key = [] then none else some (false, key, t.dropWhile Char.isLower)
    else none
  | [] => none

/-- The replacement callback of the path-macro pass (`src/bin/losh.js`
lines 779-790): a required macro missing from the path table sets the
absent flag and yields the empty string; a plain macro missing from the
table is left as the literal matched token. -/
def pathRepl (paths : String → Option String) (req : Bool) (key : List Char) :
    List Char × Bool :=
  let v := paths ⟨key⟩
  if req then
    if truthy v then ((v.getD "").data, false) else ([], true)
  else
    if truthy v then ((v.getD "").data, false) else ('@' :: key, false)

/-- Fuelled global scan of the path-macro pass. -/
def pathScanF (paths : String → Option String) : Nat → List Char → List Char × Bool
  | _, [] => ([], false)
  | 0, _ :: _ => ([], false)
  | fuel + 1, c :: cs =>
    match matchPath (c :: cs) with
    | some (req, key, rest) =>
      let r := pathRepl paths req key
      let o := pathScanF paths fuel rest
      (r.1 ++ o.1, r.2 || o.2)
    | none =>
      let o := pathScanF paths fuel cs
      (c :: o.1, o.2)

/-- The path-macro pass of `Executable.replace`: the rewritten text and
the absent flag. -/
def pathScanL (paths : String → Option String) (l : List Char) : List Char × Bool :=
  pathScanF paths l.length l

/-- Outcome of `Executable.replace`: a fully substituted string, the
lenient null result, or the strict-mode `ReplaceLoshError` throw. -/
inductive ReplaceResult
  | ok (value : String)
  | nullResult
  | missingPlaceholder
  deriving DecidableEq

/-- `Executable.replace` (`src/bin/losh.js` lines 757-800): run the bag
pass, abort on the absent flag (throwing in strict mode, returning null
otherwise), then run the path-macro pass on its output and check the
flag again. -/
def replace (content : String) (bag paths : String → Option String)
    (strict : Bool) : ReplaceResult :=
  let p1 := bagScanL bag content.data
  if p1.2 then (if strict then .missingPlaceholder else .nullResult)
  else
    let p2 := pathScanL paths p1.1
    if p2.2 then (if strict then .missingPlaceholder else .nullResult)
    else .ok ⟨p2.1⟩

/-- An insertion-ordered JS object, as used for the form value bag and
the command registry: an association list whose keys stay unique. -/
abbrev Bag (α : Type) := List (String × α)

/-- JS object property read. -/
def bagGet {α : Type} : Bag α → String → Option α
  | [], _ => none
  | (k', v) :: r, k => if k' = k then some v else bagGet r k

/-- JS object property write: an existing key keeps its position, a new
key is appended. -/
def bagSet {α : Type} : Bag α → String → α → Bag α
  | [], k, v => [(k, v)]
  | (k', v') :: r, k, v =>
    if k' = k then (k', v) :: r else (k', v') :: bagSet r k v

/-- JS `delete bag[key]`. -/
def bagDelete {α : Type} : Bag α → String → Bag α
  | [], _ => []
  | (k', v') :: r, k => if k' = k then r else (k', v') :: bagDelete r k

/-- The chained part of `Executable.for` (`src/unnamed/part_003` lines
620-631): given the remaining items, the index of the head item, the
promise produced so far and the number of factory invocations so far,
fold `promise.then(factory.bind(null, item, index))` over the items.  A
`then` on a rejected promise does not invoke the factory and keeps the
rejection. -/
def forGo {ι ε α : Type} (factory : ι → Nat → Except ε α) :
    List ι → Nat → Except ε α → Nat → Except ε (Option α) × Nat
  | [], _, p, n => (p.map some, n)
  | x :: rest, i, p, n =>
    match p with
    | .error e => (.error e, n)
    | .ok _ => forGo factory rest (i + 1) (factory x i) (n + 1)

/-- `Executable.for`: run the factory over the list items strictly in
order, chaining through promises; an empty list yields
`Promise.resolve()` (no value).  The second component counts how many
factory invocations actually happened. -/
def forRun {ι ε α : Type} (list : List ι) (factory : ι → Nat → Except ε α) :
    Except ε (Option α) × Nat :=
  match list with
  | [] => (.ok none, 0)
  | x :: rest => forGo factory rest 1 (factory x 0) 1

/-- One form field as parsed from a form JSON resource
(`fields: [[name, prompt, transformer?], ...]`). -/
structure Field where
  name : String
  prompt : String
  transformer : Option String := none

/-- JS `string.startsWith(marker)` for a one-character marker, and JS
`string.substring(1)`. -/
def startsWithChar (s : String) (c : Char) : Bool := s.data.head? == some c

/-- JS `string.substring(1)`: the string without its first character. -/
def dropFirst (s : String) : String := ⟨s.data.tail⟩

/-- A field is required unless its declared name starts with `?`
(`src/bin/losh.js` line 843). -/
def fieldRequired (f : Field) : Bool := !(startsWithChar f.name '?')

/-- The stored name of a field, with the optional `?` marker stripped. -/
def fieldName (f : Field) : String :=
  if startsWithChar f.name '?' then dropFirst f.name else f.name

/-- `Executable.readlineWhile` specialised to the form reader: consume
answers from the input stream until one passes the required-nonempty
check; a read failure is returned as is.  `none` is the modelling
artifact of an exhausted finite stream (the real user stream is
unbounded). -/
def readlineWhile {ε : Type} (required : Bool) :
    List (Except ε String) → Option (Except ε String × List (Except ε String))
  | [] => none
  | (.error e) :: rest => some (.error e, rest)
  | (.ok ans) :: rest =>
    if required && ans == "" then readlineWhile required rest
    else some (.ok ans, rest)

/-- The per-field store-then-resolve step of `Executable.form`
(`src/bin/losh.js` lines 849-856): store the raw answer under the field
name, resolve the transformer template (default `\x7b\x7bname\x7d\x7d`)
leniently against the bag including the raw answer, then store a truthy
result or delete the field on a falsy one. -/
def storeResolve (paths : String → Option String) (bag : Bag String)
    (f : Field) (ans : String) : Bag String :=
  let name := fieldName f
  let transformer := f.transformer.getD ("\x7b\x7b" ++ name ++ "\x7d\x7d")
  let bag1 := bagSet bag name ans
  match replace transformer (bagGet bag1) paths false with
  | .ok v => if v == "" then bagDelete bag1 name else bagSet bag1 name v
  | _ => bagDelete bag1 name

/-- Result of `Executable.form`: the accumulated bag, plus the error of
a failed field read when the collection aborted early. -/
structure FormResult (ε : Type) where
  bag : Bag String
  error : Option ε
  deriving DecidableEq

/-- The field-collection loop of `Executable.form` (`src/bin/losh.js`
lines 842-858): fields strictly in declaration order; a read failure
returns the bag collected so far together with the error; otherwise the
store-then-resolve step runs and the loop continues.  `none` only for
the exhausted-stream modelling artifact. -/
def formRun {ε : Type} (paths : String → Option String) :
    List Field → Bag String → List (Except ε String) → Option (FormResult ε)
  | [], bag, _ => some ⟨bag, none⟩
  | f :: rest, bag, stream =>
    match readlineWhile (fieldRequired f) stream with
    | none => none
    | some (.error e, _) => some ⟨bag, some e⟩
    | some (.ok ans, stream') => formRun paths rest (storeResolve paths bag f ans) stream'
  termination_by structural fields => fields

/-- One parsed command parameter (the `params` getter,
`src/bin/losh.js` lines 455-491). -/
structure Param where
  name : String
  required : Bool
  options : Option (List String)
  fallback : Option String
  description : Option String

/-- A raw parameter declaration `[name, description?, options?,
fallback?]` (a bare-name declaration is the same with the optional
entries absent). -/
structure RawParam where
  name : String
  description : Option String := none
  options : Option (List String) := none
  fallback : Option String := none

/-- Parse one raw parameter declaration: a leading `!` on the name marks
the parameter required and is stripped; falsy description/fallback
normalise to null. -/
def paramOf (r : RawParam) : Param :=
  { name := if startsWithChar r.name '!' then dropFirst r.name else r.name
    required := startsWithChar r.name '!' 
    options := r.options
    fallback := match r.fallback with
      | some f => if f = "" then none else some f
      | none => none
    description := match r.description with
      | some d => if d = "" then none else some d
      | none => none }

/-- The bound value of one parameter: `args[i] || fallback` — a missing
or empty raw argument falls back to the declared fallback (which may
itself be absent). -/
def resolveVal (p : Param) : Option String → Option String
  | some a => if a == "" then p.fallback else some a
  | none => p.fallback

/-- Result of argument binding in `Executable.run`: either the first
required parameter that resolved to null (the command body is never
reached), or the bound bag plus the overflow sequence `args._`. -/
inductive BindResult
  | missing (param : String)
  | success (bound : Bag (Option String)) (overflow : List String)
  deriving DecidableEq

/-- The binding loop of `Executable.run` (`src/bin/losh.js` lines
685-696): positions with a declared parameter bind `args[i] || fallback`
and abort on a null-resolved required parameter; once the declared
parameters are exhausted the remaining raw arguments are appended to the
overflow sequence in arrival order. -/
def bindGo : List Param → List String → Bag (Option String) → List String → BindResult
  | [], args, bound, ov => .success bound (ov ++ args)
  | p :: ps, args, bound, ov =>
    let v := resolveVal p args.head?
    let bound' := bagSet bound p.name v
    if p.required = true ∧ v = none then .missing p.name
    else bindGo ps args.tail bound' ov

/-- Argument binding of `Executable.run`: with an empty declared
parameter list the whole loop is skipped (`if (this.params.length)`), so
the bound bag and the overflow sequence both stay empty. -/
def bindArgs (params : List Param) (args : List String) : BindResult :=
  if params.isEmpty then .success [] []
  else bindGo params args [] []

/-- Observable outcome of `Executable.run` with an opaque command body:
either binding failed (the body is never invoked) or the body ran on the
bound arguments. -/
inductive RunOutcome (β : Type)
  | bindFail (param : String)
  | executed (result : β)
  deriving DecidableEq

/-- `Executable.run` up to the dispatch into the command body: bind the
arguments, return the binding error without running the body, otherwise
run the body on the bound bag and overflow. -/
def run {β : Type} (params : List Param) (args : List String)
    (body : Bag (Option String) → List String → β) : RunOutcome β :=
  match bindArgs params args with
  | .missing n => .bindFail n
  | .success bound ov => .executed (body bound ov)

/-- Index of the last `.` of a file name, if any. -/
def lastDotPos : List Char → Option Nat
  | [] => none
  | c :: r =>
    match lastDotPos r with
    | some i => some (i + 1)
    | none => if c = '.' then some 0 else none

/-- `Path.extname` for a plain file name: the suffix from the last dot,
empty when there is no dot or the only dot is the leading character. -/
def extname (s : String) : String :=
  match lastDotPos s.data with
  | none => ""
  | some p => if p = 0 then "" else ⟨s.data.drop p⟩

/-- The registry name of a command file: the file name with its
extension cut off (`src/bin/losh.js` line 1062). -/
def cmdName (file : String) : String :=
  ⟨file.data.take (file.data.length - (extname file).data.length)⟩

/-- A resolved registry entry: a built-in native handler or the path of
an external script file. -/
inductive CmdEntry
  | native (fn : String)
  | script (path : String)
  deriving DecidableEq

/-- One source passed to `System.initCommands`: a native handler
function (keyed by its function name) or a directory (its path and the
file names found in it). -/
inductive CmdSource
  | fn (name : String)
  | dir (path : String) (files : List String)

/-- `System.initCommands` (`src/bin/losh.js` lines 1058-1070): register
a native handler under its name, or register every `.js`/`.sh` file of
a directory under its base name; `Path.join` is modelled as separator
concatenation.  Later registrations overwrite earlier entries of the
same name. -/
def initCommands (reg : Bag CmdEntry) : CmdSource → Bag CmdEntry
  | .fn name => bagSet reg name (.native name)
  | .dir path files =>
    files.foldl
      (fun r file =>
        if extname file = ".js" ∨ extname file = ".sh" then
          bagSet r (cmdName file) (.script (path ++ "/" ++ file))
        else r)
      reg

/-- The built-in native commands in their registration order
(`src/bin/losh.js` lines 1041-1050). -/
def nativeNames : List String :=
  ["cr", "cex", "cim", "version", "debug", "list", "generate", "test",
   "install", "uninstall"]

/-- The `commands` getter of `System`: built-in native commands first,
then the optional extension directory. -/
def buildCommands (ext : Option (String × List String)) : Bag CmdEntry :=
  let base := nativeNames.foldl (fun r n => initCommands r (.fn n)) []
  match ext with
  | none => base
  | some (p, files) => initCommands base (.dir p files)

/-- A template made only of literal chunks and plain bag placeholders,
used to state the round-trip property of the substitution engine. -/
inductive Item
  | lit (s : String)
  | ph (key : String)

/-- Render an `Item` template to its source text: a plain placeholder
`ph key` prints as the key wrapped in double braces. -/
def renderT : List Item → List Char
  | [] => []
  | (.lit s) :: r => s.data ++ renderT r
  | (.ph k) :: r => '{' :: '{' :: (k.data ++ '}' :: '}' :: renderT r)

/-- The expected substitution of an `Item` template: each placeholder
replaced verbatim by its bag value. -/
def renderVals (bag : String → Option String) : List Item → List Char
  | [] => []
  | (.lit s) :: r => s.data ++ renderVals bag r
  | (.ph k) :: r => ((bag k).getD "").data ++ renderVals bag r

/-- Well-formedness of one `Item` for the round-trip property: literal
chunks carry no brace or path-macro characters, placeholder keys are
non-empty alphanumeric and present in the bag with a value free of brace
and path-macro characters. -/
def itemOkB (bag : String → Option String) : Item → Bool
  | .lit s => s.data.all (fun c => c != '{' && c != '}' && c != '@')
  | .ph k =>
    !k.data.isEmpty && k.data.all isAlnum &&
      (match bag k with
       | none => false
       | some v => v.data.all (fun c => c != '{' && c != '}' && c != '@'))

/-- Well-formedness of an `Item` template. -/
def wfItemsB (bag : String → Option String) (items : List Item) : Bool :=
  items.all (itemOkB bag)

/-- The empty path table (no `System.paths` entries). -/
def emptyPaths : String → Option String := fun _ => none

/-! ### Infrastructure lemmas about the scanners -/

theorem length_dropWhile_le' (p : Char → Bool) (l : List Char) :
    (l.dropWhile p).length ≤ l.length := by
  induction l with
  | nil => simp
  | cons c cs ih =>
    by_cases h : p c
    · simp only [List.dropWhile_cons_of_pos h]
      exact Nat.le_trans ih (Nat.le_succ _)
    · simp [List.dropWhile_cons_of_neg h]

theorem mkMatch_rest_length {g1 : List Char} {req : Bool} {t2 : List Char}
    {m : BagMatch} (h : mkMatch g1 req t2 = some m) :
    m.rest.length ≤ t2.length := by
  unfold mkMatch at h
  by_cases hkey : t2.takeWhile isAlnum = []
  · simp [hkey] at h
  · simp only [hkey, if_neg, ite_false] at h
    cases hg : greedyK ((t2.dropWhile isAlnum).takeWhile isDeco) with
    | none => rw [hg] at h; exact absurd h (by simp)
    | some k =>
      rw [hg] at h
      have hm : m = ⟨g1, t2.takeWhile isAlnum, req,
          ((t2.dropWhile isAlnum).takeWhile isDeco).take k,
          ((t2.dropWhile isAlnum).takeWhile isDeco).drop (k + 2) ++
            (t2.dropWhile isAlnum).dropWhile isDeco⟩ := by
        cases h; rfl
      subst hm
      simp only [List.length_append, List.length_drop]
      have h1 : (((t2.dropWhile isAlnum).takeWhile isDeco).length - (k + 2)) +
          ((t2.dropWhile isAlnum).dropWhile isDeco).length ≤
          ((t2.dropWhile isAlnum).takeWhile isDeco).length +
          ((t2.dropWhile isAlnum).dropWhile isDeco).length := by
        omega
      have h2 : ((t2.dropWhile isAlnum).takeWhile isDeco).length +
          ((t2.dropWhile isAlnum).dropWhile isDeco).length =
          (t2.dropWhile isAlnum).length := by
        rw [← List.length_append, List.takeWhile_append_dropWhile]
      exact Nat.le_trans h1 (h2 ▸ length_dropWhile_le' isAlnum t2)

theorem matchBody_rest_length {t : List Char} {m : BagMatch}
    (h : matchBody t = some m) : m.rest.length ≤ t.length := by
  unfold matchBody at h
  by_cases hh : (t.dropWhile isDeco).head? = some '!'
  · rw [if_pos hh] at h
    have h1 := mkMatch_rest_length h
    have h2 : (t.dropWhile isDeco).tail.length ≤ t.length := by
      have := length_dropWhile_le' isDeco t
      have := (t.dropWhile isDeco).length_tail
      omega
    omega
  · rw [if_neg hh] at h
    exact Nat.le_trans (mkMatch_rest_length h) (length_dropWhile_le' isDeco t)

theorem matchBag_eq_def (a b : Char) (t : List Char) :
    matchBag (a :: b :: t) =
      if a = '{' then if b = '{' then matchBody t else none else none := rfl

theorem matchBag_rest_lt {l : List Char} {m : BagMatch}
    (h : matchBag l = some m) : m.rest.length < l.length := by
  match l with
  | [] => simp [matchBag] at h
  | [a] => simp [matchBag] at h
  | a :: b :: t =>
    rw [matchBag_eq_def] at h
    by_cases ha : a = '{'
    · by_cases hb : b = '{'
      · rw [if_pos ha, if_pos hb] at h
        have := matchBody_rest_length h
        simp only [List.length_cons]
        omega
      · simp [ha, hb] at h
    · simp [ha] at h

theorem matchBag_cons_none {c : Char} (cs : List Char) (h : c ≠ '{') :
    matchBag (c :: cs) = none := by
  cases cs with
  | nil => rfl
  | cons b t => simp [matchBag, h]

theorem bagScanF_succ_of_match {bag : String → Option String} {fuel : Nat}
    {c : Char} {cs : List Char} {m : BagMatch} (h : matchBag (c :: cs) = some m) :
    bagScanF bag (fuel + 1) (c :: cs) =
      ((bagRepl bag m).1 ++ (bagScanF bag fuel m.rest).1,
        (bagRepl bag m).2 || (bagScanF bag fuel m.rest).2) := by
  simp only [bagScanF, h]

theorem bagScanF_succ_of_none {bag : String → Option String} {fuel : Nat}
    {c : Char} {cs : List Char} (h : matchBag (c :: cs) = none) :
    bagScanF bag (fuel + 1) (c :: cs) =
      (c :: (bagScanF bag fuel cs).1, (bagScanF bag fuel cs).2) := by
  simp only [bagScanF, h]

theorem bagScanF_congr (bag : String → Option String) :
    ∀ (f1 f2 : Nat) (l : List Char), l.length ≤ f1 → l.length ≤ f2 →
      bagScanF bag f1 l = bagScanF bag f2 l := by
  intro f1
  induction f1 with
  | zero =>
    intro f2 l h1 _
    have : l = [] := List.length_eq_zero.mp (Nat.le_zero.mp h1)
    subst this
    cases f2 <;> rfl
  | succ g ih =>
    intro f2 l h1 h2
    cases l with
    | nil => cases f2 <;> rfl
    | cons c cs =>
      cases f2 with
      | zero => simp at h2
      | succ g2 =>
        cases hm : matchBag (c :: cs) with
        | some m =>
          have hlt := matchBag_rest_lt hm
          simp only [List.length_cons] at h1 h2 hlt
          rw [bagScanF_succ_of_match hm, bagScanF_succ_of_match hm,
              ih g2 m.rest (by omega) (by omega)]
        | none =>
          simp only [List.length_cons] at h1 h2
          rw [bagScanF_succ_of_none hm, bagScanF_succ_of_none hm,
              ih g2 cs (by omega) (by omega)]

theorem bagScanL_cons_none {bag : String → Option String} {c : Char}
    {cs : List Char} (h : matchBag (c :: cs) = none) :
    bagScanL bag (c :: cs) = (c :: (bagScanL bag cs).1, (bagScanL bag cs).2) := by
  show bagScanF bag (cs.length + 1) (c :: cs) = _
  rw [bagScanF_succ_of_none h]
  rfl

theorem bagScanL_cons_match {bag : String → Option String} {c : Char}
    {cs : List Char} {m : BagMatch} (h : matchBag (c :: cs) = some m) :
    bagScanL bag (c :: cs) =
      ((bagRepl bag m).1 ++ (bagScanL bag m.rest).1,
        (bagRepl bag m).2 || (bagScanL bag m.rest).2) := by
  show bagScanF bag (cs.length + 1) (c :: cs) = _
  rw [bagScanF_succ_of_match h]
  have hlt := matchBag_rest_lt h
  simp only [List.length_cons] at hlt
  rw [bagScanF_congr bag cs.length m.rest.length m.rest (by omega) (by omega)]
  rfl

theorem bagScanL_append_lit (bag : String → Option String) (s rest : List Char)
    (h : ∀ c ∈ s, c ≠ '{') :
    bagScanL bag (s ++ rest) =
      (s ++ (bagScanL bag rest).1, (bagScanL bag rest).2) := by
  induction s with
  | nil => simp
  | cons c cs ih =>
    have hc : c ≠ '{' := h c (List.mem_cons_self c cs)
    have hmb := matchBag_cons_none (cs ++ rest) hc
    rw [List.cons_append, bagScanL_cons_none hmb,
        ih (fun x hx => h x (List.mem_cons_of_mem c hx))]
    simp

/-! ### Character class facts -/

theorem deco_not_alnum {c : Char} (h : isDeco c = true) : isAlnum c = false := by
  unfold isDeco at h
  unfold isAlnum
  cases ha : c.isAlphanum
  · rfl
  · rw [ha] at h; simp at h

theorem alnum_not_deco {c : Char} (h : isAlnum c = true) : isDeco c = false := by
  unfold isAlnum at h
  unfold isDeco
  rw [h]
  simp

theorem alnum_ne_bang {c : Char} (h : isAlnum c = true) : c ≠ '!' := by
  intro he
  subst he
  simp [isAlnum, Char.isAlphanum, Char.isAlpha, Char.isUpper, Char.isLower,
    Char.isDigit] at h

/-! ### Greedy closing-brace search -/

theorem braceAt_cons_succ (c : Char) (l : List Char) (k : Nat) :
    braceAt (c :: l) (k + 1) = braceAt l k := rfl

theorem greedyAux_some_of_exists {run : List Char} {k0 : Nat}
    (h0 : braceAt run k0 = true) :
    ∀ n, k0 ≤ n → ∃ k, greedyAux run n = some k ∧ braceAt run k = true := by
  intro n
  induction n with
  | zero =>
    intro hle
    have : k0 = 0 := Nat.le_zero.mp hle
    subst this
    exact ⟨0, by simp [greedyAux, h0], h0⟩
  | succ g ih =>
    intro hle
    by_cases hb : braceAt run (g + 1) = true
    · exact ⟨g + 1, by simp [greedyAux, hb], hb⟩
    · have hk0 : k0 ≤ g := by
        rcases Nat.lt_or_ge k0 (g + 1) with h | h
        · omega
        · have : k0 = g + 1 := by omega
          subst this
          exact absurd h0 hb
      obtain ⟨k, hk, hbk⟩ := ih hk0
      refine ⟨k, ?_, hbk⟩
      simp [greedyAux, hb, hk]

theorem greedyAux_eq_of_unique {run : List Char} {k0 : Nat}
    (h0 : braceAt run k0 = true)
    (huniq : ∀ k, braceAt run k = true → k = k0) :
    ∀ n, k0 ≤ n → greedyAux run n = some k0 := by
  intro n
  induction n with
  | zero =>
    intro hle
    have : k0 = 0 := Nat.le_zero.mp hle
    subst this
    simp [greedyAux, h0]
  | succ g ih =>
    intro hle
    by_cases hb : braceAt run (g + 1) = true
    · have := huniq _ hb
      subst this
      simp [greedyAux, hb]
    · have hk0 : k0 ≤ g := by
        rcases Nat.lt_or_ge k0 (g + 1) with h | h
        · omega
        · have : k0 = g + 1 := by omega
          subst this
          exact absurd h0 hb
      simp [greedyAux, hb, ih hk0]

theorem braceAt_at_boundary (u v : List Char) :
    braceAt (u ++ '}' :: '}' :: v) u.length = true := by
  unfold braceAt
  rw [List.drop_left]
  simp

theorem take_two_eq {l : List Char} {a b : Char} (h : l.take 2 = [a, b]) :
    ∃ r, l = a :: b :: r := by
  match l with
  | [] => simp at h
  | [x] => simp at h
  | x :: y :: r =>
    simp only [List.take_succ_cons, List.take_zero] at h
    have hx : x = a := ((List.cons.injEq _ _ _ _).mp h).1
    have hy : y = b := ((List.cons.injEq _ _ _ _).mp ((List.cons.injEq _ _ _ _).mp h).2).1
    exact ⟨r, by rw [hx, hy]⟩

theorem braceAt_shape {run : List Char} {k : Nat} (h : braceAt run k = true) :
    ∃ r, run.drop k = '}' :: '}' :: r := by
  unfold braceAt at h
  exact take_two_eq (by simpa using h)

theorem braceAt_unique (u v : List Char) (hu : '}' ∉ u) (hv : '}' ∉ v) :
    ∀ k, braceAt (u ++ '}' :: '}' :: v) k = true → k = u.length := by
  induction u with
  | nil =>
    intro k hk
    obtain ⟨r, hr⟩ := braceAt_shape hk
    simp only [List.nil_append, List.length_nil]
    match k, hr with
    | 0, _ => rfl
    | 1, hr =>
      exfalso
      have hr' : ('}' : Char) :: v = '}' :: '}' :: r := hr
      have : v = '}' :: r := ((List.cons.injEq _ _ _ _).mp hr').2
      exact hv (this ▸ List.mem_cons_self '}' r)
    | k + 2, hr =>
      exfalso
      have hr' : v.drop k = '}' :: '}' :: r := hr
      have : '}' ∈ v.drop k := hr' ▸ List.mem_cons_self '}' ('}' :: r)
      exact hv (List.mem_of_mem_drop this)
  | cons c u' ih =>
    intro k hk
    have hc : c ≠ '}' := fun he => hu (he ▸ List.mem_cons_self c u')
    match k with
    | 0 =>
      exfalso
      obtain ⟨r, hr⟩ := braceAt_shape hk
      simp only [List.cons_append, List.drop_zero] at hr
      exact hc ((List.cons.injEq _ _ _ _).mp hr).1
    | k + 1 =>
      have hstep : braceAt (u' ++ '}' :: '}' :: v) k = true := by
        rw [← braceAt_cons_succ c]
        exact hk
      have := ih (fun hm => hu (List.mem_cons_of_mem c hm)) k hstep
      simp [this]

/-! ### Exact and loose characterisations of a placeholder match -/

theorem takeWhile_alnum_stop (d2 post : List Char)
    (hd2 : ∀ c ∈ d2, isDeco c = true) :
    (d2 ++ '}' :: '}' :: post).takeWhile isAlnum = [] := by
  cases d2 with
  | nil => exact List.takeWhile_cons_of_neg (by decide)
  | cons c d2' =>
    rw [List.cons_append]
    exact List.takeWhile_cons_of_neg
      (by simp [deco_not_alnum (hd2 c (List.mem_cons_self c d2'))])

theorem dropWhile_alnum_stop (d2 post : List Char)
    (hd2 : ∀ c ∈ d2, isDeco c = true) :
    (d2 ++ '}' :: '}' :: post).dropWhile isAlnum = d2 ++ '}' :: '}' :: post := by
  cases d2 with
  | nil => exact List.dropWhile_cons_of_neg (by decide)
  | cons c d2' =>
    rw [List.cons_append]
    exact List.dropWhile_cons_of_neg
      (by simp [deco_not_alnum (hd2 c (List.mem_cons_self c d2'))])

theorem mkMatch_exact (g1 : List Char) (req : Bool) (key d2 post : List Char)
    (hkey : key ≠ []) (hka : ∀ c ∈ key, isAlnum c = true)
    (hd2 : ∀ c ∈ d2, isDeco c = true) (hd2b : '}' ∉ d2)
    (hpostb : '}' ∉ post.takeWhile isDeco) :
    mkMatch g1 req (key ++ (d2 ++ '}' :: '}' :: post)) =
      some ⟨g1, key, req, d2, post⟩ := by
  have e1 : (key ++ (d2 ++ '}' :: '}' :: post)).takeWhile isAlnum = key := by
    rw [List.takeWhile_append_of_pos hka, takeWhile_alnum_stop d2 post hd2,
      List.append_nil]
  have e2 : (key ++ (d2 ++ '}' :: '}' :: post)).dropWhile isAlnum =
      d2 ++ '}' :: '}' :: post := by
    rw [List.dropWhile_append_of_pos hka, dropWhile_alnum_stop d2 post hd2]
  have e3 : (d2 ++ '}' :: '}' :: post).takeWhile isDeco =
      d2 ++ '}' :: '}' :: post.takeWhile isDeco := by
    rw [List.takeWhile_append_of_pos hd2, List.takeWhile_cons_of_pos (by decide),
      List.takeWhile_cons_of_pos (by decide)]
  have e4 : (d2 ++ '}' :: '}' :: post).dropWhile isDeco =
      post.dropWhile isDeco := by
    rw [List.dropWhile_append_of_pos hd2, List.dropWhile_cons_of_pos (by decide),
      List.dropWhile_cons_of_pos (by decide)]
  have e5 : greedyK (d2 ++ '}' :: '}' :: post.takeWhile isDeco) =
      some d2.length := by
    apply greedyAux_eq_of_unique (braceAt_at_boundary d2 (post.takeWhile isDeco))
      (braceAt_unique d2 (post.takeWhile isDeco) hd2b hpostb)
    simp only [List.length_append, List.length_cons]
    omega
  have e6 : (d2 ++ '}' :: '}' :: post.takeWhile isDeco).take d2.length = d2 :=
    List.take_left d2 _
  have e7 : (d2 ++ '}' :: '}' :: post.takeWhile isDeco).drop (d2.length + 2) =
      post.takeWhile isDeco := by
    have h1 : (d2 ++ '}' :: '}' :: post.takeWhile isDeco).drop d2.length =
        '}' :: '}' :: post.takeWhile isDeco := List.drop_left d2 _
    have h2 := List.drop_drop 2 d2.length (d2 ++ '}' :: '}' :: post.takeWhile isDeco)
    rw [h1] at h2
    rw [← h2]
    rfl
  simp only [mkMatch, e1, e2, e3, e4, e5, if_neg hkey]
  rw [e6, e7, List.takeWhile_append_dropWhile]

theorem mkMatch_loose (g1 : List Char) (req : Bool) (key post : List Char)
    (hkey : key ≠ []) (hka : ∀ c ∈ key, isAlnum c = true) :
    ∃ m, mkMatch g1 req (key ++ '}' :: '}' :: post) = some m ∧
      m.g1 = g1 ∧ m.sel = key ∧ m.required = req := by
  have e1 : (key ++ '}' :: '}' :: post).takeWhile isAlnum = key := by
    rw [List.takeWhile_append_of_pos hka, List.takeWhile_cons_of_neg (by decide),
      List.append_nil]
  have e2 : (key ++ '}' :: '}' :: post).dropWhile isAlnum = '}' :: '}' :: post :=
    by rw [List.dropWhile_append_of_pos hka, List.dropWhile_cons_of_neg (by decide)]
  have e3 : ('}' :: '}' :: post).takeWhile isDeco =
      '}' :: '}' :: post.takeWhile isDeco := by
    rw [List.takeWhile_cons_of_pos (by decide), List.takeWhile_cons_of_pos (by decide)]
  have h0 : braceAt ('}' :: '}' :: post.takeWhile isDeco) 0 = true := by
    simp [braceAt]
  obtain ⟨k, hk, _⟩ := greedyAux_some_of_exists h0
    ('}' :: '}' :: post.takeWhile isDeco).length (Nat.zero_le _)
  refine ⟨⟨g1, key, req,
      ('}' :: '}' :: post.takeWhile isDeco).take k,
      ('}' :: '}' :: post.takeWhile isDeco).drop (k + 2) ++
        ('}' :: '}' :: post).dropWhile isDeco⟩, ?_, rfl, rfl, rfl⟩
  simp only [mkMatch, e1, e2, e3, if_neg hkey]
  rw [show greedyK ('}' :: '}' :: post.takeWhile isDeco) = some k from hk]

theorem matchBody_req (d1 rest : List Char) (hd1 : ∀ c ∈ d1, isDeco c = true) :
    matchBody (d1 ++ '!' :: rest) = mkMatch d1 true rest := by
  have e1 : (d1 ++ '!' :: rest).takeWhile isDeco = d1 := by
    rw [List.takeWhile_append_of_pos hd1, List.takeWhile_cons_of_neg (by decide),
      List.append_nil]
  have e2 : (d1 ++ '!' :: rest).dropWhile isDeco = '!' :: rest := by
    rw [List.dropWhile_append_of_pos hd1, List.dropWhile_cons_of_neg (by decide)]
  simp [matchBody, e1, e2]

theorem matchBody_plain (c : Char) (rest : List Char)
    (hc : isAlnum c = true) :
    matchBody (c :: rest) = mkMatch [] false (c :: rest) := by
  have e1 : (c :: rest).takeWhile isDeco = [] :=
    List.takeWhile_cons_of_neg (by simp [alnum_not_deco hc])
  have e2 : (c :: rest).dropWhile isDeco = c :: rest :=
    List.dropWhile_cons_of_neg (by simp [alnum_not_deco hc])
  have e3 : ¬((c :: rest).head? = some '!') := by
    simp only [List.head?_cons, Option.some.injEq]
    exact alnum_ne_bang hc
  simp only [matchBody, e1, e2]
  rw [if_neg e3]

theorem matchBag_braces (t : List Char) :
    matchBag ('{' :: '{' :: t) = matchBody t := by
  rw [matchBag_eq_def]
  simp

/-- Exact match of a full required placeholder occurrence
`\x7b\x7b d1 !key d2 \x7d\x7d post`. -/
theorem matchBag_req_exact (d1 key d2 post : List Char)
    (hd1 : ∀ c ∈ d1, isDeco c = true)
    (hkey : key ≠ []) (hka : ∀ c ∈ key, isAlnum c = true)
    (hd2 : ∀ c ∈ d2, isDeco c = true) (hd2b : '}' ∉ d2)
    (hpostb : '}' ∉ post.takeWhile isDeco) :
    matchBag ('{' :: '{' :: (d1 ++ '!' :: (key ++ (d2 ++ '}' :: '}' :: post)))) =
      some ⟨d1, key, true, d2, post⟩ := by
  rw [matchBag_braces, matchBody_req d1 _ hd1,
    mkMatch_exact d1 true key d2 post hkey hka hd2 hd2b hpostb]

/-- Exact match of an undecorated plain placeholder occurrence
`\x7b\x7bkey\x7d\x7d post`. -/
theorem matchBag_plain_exact (key post : List Char)
    (hkey : key ≠ []) (hka : ∀ c ∈ key, isAlnum c = true)
    (hpostb : '}' ∉ post.takeWhile isDeco) :
    matchBag ('{' :: '{' :: (key ++ '}' :: '}' :: post)) =
      some ⟨[], key, false, [], post⟩ := by
  match key, hkey, hka with
  | c :: key', hkey, hka =>
    rw [matchBag_braces, List.cons_append,
      matchBody_plain c (key' ++ '}' :: '}' :: post) (hka c (List.mem_cons_self c key')),
      ← List.cons_append]
    have := mkMatch_exact [] false (c :: key') [] post hkey hka
      (by intro x hx; exact absurd hx (List.not_mem_nil x)) (List.not_mem_nil '}') hpostb
    simpa using this

/-- Loose match of an undecorated required occurrence with an arbitrary
tail: whatever the greedy trailing group swallows, the selected key and
the required flag are fixed. -/
theorem matchBag_req_loose (key post : List Char)
    (hkey : key ≠ []) (hka : ∀ c ∈ key, isAlnum c = true) :
    ∃ m, matchBag ('{' :: '{' :: '!' :: (key ++ '}' :: '}' :: post)) = some m ∧
      m.sel = key ∧ m.required = true := by
  have hb : matchBag ('{' :: '{' :: '!' :: (key ++ '}' :: '}' :: post)) =
      mkMatch [] true (key ++ '}' :: '}' :: post) := by
    rw [matchBag_braces]
    have := matchBody_req [] (key ++ '}' :: '}' :: post)
      (by intro x hx; exact absurd hx (List.not_mem_nil x))
    simpa using this
  obtain ⟨m, hm, _, hsel, hreq⟩ := mkMatch_loose [] true key post hkey hka
  exact ⟨m, hb ▸ hm, hsel, hreq⟩

/-! ### Path-macro scan lemmas -/

theorem matchPath_cons_none {c : Char} (cs : List Char) (h : c ≠ '@') :
    matchPath (c :: cs) = none := by
  simp [matchPath, h]

theorem matchPath_rest_lt {l : List Char} {req : Bool} {key rest : List Char}
    (h : matchPath l = some (req, key, rest)) : rest.length < l.length := by
  match l with
  | [] => simp [matchPath] at h
  | a :: t =>
    have hdef : matchPath (a :: t) =
        (if a = '@' then
          if t.head? = some '!' then
            if t.tail.takeWhile Char.isLower = [] then none
            else some (true, t.tail.takeWhile Char.isLower, t.tail.dropWhile Char.isLower)
          else
            if t.takeWhile Char.isLower = [] then none
            else some (false, t.takeWhile Char.isLower, t.dropWhile Char.isLower)
        else none) := rfl
    rw [hdef] at h
    by_cases ha : a = '@'
    · rw [if_pos ha] at h
      by_cases hh : t.head? = some '!'
      · rw [if_pos hh] at h
        by_cases hk : t.tail.takeWhile Char.isLower = []
        · simp [hk] at h
        · simp only [hk, if_neg, ite_false] at h
          have : rest = t.tail.dropWhile Char.isLower := by
            cases h; rfl
          subst this
          have h1 := length_dropWhile_le' Char.isLower t.tail
          have h2 := t.length_tail
          simp only [List.length_cons]
          omega
      · rw [if_neg hh] at h
        by_cases hk : t.takeWhile Char.isLower = []
        · simp [hk] at h
        · simp only [hk, if_neg, ite_false] at h
          have : rest = t.dropWhile Char.isLower := by
            cases h; rfl
          subst this
          have h1 := length_dropWhile_le' Char.isLower t
          simp only [List.length_cons]
          omega
    · simp [ha] at h

theorem pathScanF_succ_of_match {paths : String → Option String} {fuel : Nat}
    {c : Char} {cs : List Char} {req : Bool} {key rest : List Char}
    (h : matchPath (c :: cs) = some (req, key, rest)) :
    pathScanF paths (fuel + 1) (c :: cs) =
      ((pathRepl paths req key).1 ++ (pathScanF paths fuel rest).1,
        (pathRepl paths req key).2 || (pathScanF paths fuel rest).2) := by
  simp only [pathScanF, h]

theorem pathScanF_succ_of_none {paths : String → Option String} {fuel : Nat}
    {c : Char} {cs : List Char} (h : matchPath (c :: cs) = none) :
    pathScanF paths (fuel + 1) (c :: cs) =
      (c :: (pathScanF paths fuel cs).1, (pathScanF paths fuel cs).2) := by
  simp only [pathScanF, h]

theorem pathScanF_congr (paths : String → Option String) :
    ∀ (f1 f2 : Nat) (l : List Char), l.length ≤ f1 → l.length ≤ f2 →
      pathScanF paths f1 l = pathScanF paths f2 l := by
  intro f1
  induction f1 with
  | zero =>
    intro f2 l h1 _
    have : l = [] := List.length_eq_zero.mp (Nat.le_zero.mp h1)
    subst this
    cases f2 <;> rfl
  | succ g ih =>
    intro f2 l h1 h2
    cases l with
    | nil => cases f2 <;> rfl
    | cons c cs =>
      cases f2 with
      | zero => simp at h2
      | succ g2 =>
        cases hm : matchPath (c :: cs) with
        | some t3 =>
          obtain ⟨req, key, rest⟩ := t3
          have hlt := matchPath_rest_lt hm
          simp only [List.length_cons] at h1 h2 hlt
          rw [pathScanF_succ_of_match hm, pathScanF_succ_of_match hm,
              ih g2 rest (by omega) (by omega)]
        | none =>
          simp only [List.length_cons] at h1 h2
          rw [pathScanF_succ_of_none hm, pathScanF_succ_of_none hm,
              ih g2 cs (by omega) (by omega)]

/-- A text with no `@` character passes the path-macro pass unchanged
and never raises the absent flag. -/
theorem pathScanL_no_at (paths : String → Option String) (l : List Char)
    (h : ∀ c ∈ l, c ≠ '@') : pathScanL paths l = (l, false) := by
  induction l with
  | nil => rfl
  | cons c cs ih =>
    have hc : c ≠ '@' := h c (List.mem_cons_self c cs)
    have hstep : pathScanL paths (c :: cs) =
        (c :: (pathScanL paths cs).1, (pathScanL paths cs).2) := by
      show pathScanF paths (cs.length + 1) (c :: cs) = _
      rw [pathScanF_succ_of_none (matchPath_cons_none cs hc)]
      rfl
    rw [hstep, ih (fun x hx => h x (List.mem_cons_of_mem c hx))]

/-! ### Claim C1: strict and lenient behaviour on a missing required key -/

/-- The scenario bag `\x7bname: "Ada"\x7d`. -/
def adaBag : String → Option String := fun k => if k = "name" then some "Ada" else none

/-- The scenario path table `\x7broot: "/x"\x7d`. -/
def rootPaths : String → Option String := fun k => if k = "root" then some "/x" else none

/-- The empty value bag. -/
def emptyBag : String → Option String := fun _ => none

/-- A required placeholder whose key is unbound raises the absent flag of
the bag pass, wherever it occurs after a brace-free prefix. -/
theorem bagScanL_breaked_of_occ (bag : String → Option String)
    (pre key post : List Char) (hpre : ∀ c ∈ pre, c ≠ '{')
    (hkey : key ≠ []) (hka : ∀ c ∈ key, isAlnum c = true)
    (hmiss : bag ⟨key⟩ = none) :
    (bagScanL bag (pre ++ '{' :: '{' :: '!' :: (key ++ '}' :: '}' :: post))).2 = true := by
  rw [bagScanL_append_lit bag pre _ hpre]
  obtain ⟨m, hm, hsel, hreq⟩ := matchBag_req_loose key post hkey hka
  have hb : bagRepl bag m = ([], true) := by
    simp only [bagRepl, hsel, hreq, hmiss]
  rw [bagScanL_cons_match hm]
  simp [hb]

/-- When the bag pass raises the absent flag, `Executable.replace` throws
in strict mode and returns null in lenient mode. -/
theorem replace_of_breaked (content : String) (bag paths : String → Option String)
    (strict : Bool) (h : (bagScanL bag content.data).2 = true) :
    replace content bag paths strict =
      if strict then .missingPlaceholder else .nullResult := by
  simp only [replace, h]
  simp

/-- C1: for every template containing a required bag placeholder (after a
brace-free prefix and with an arbitrary tail) whose key is absent from
the bag, `Executable.replace` throws `MissingPlaceholder`
(`ReplaceLoshError`) with `strict=true` and returns the null result
without throwing with `strict=false`; and on the spec scenario
`"Hello \x7b\x7b!name\x7d\x7d, path @root"` with path table
`\x7broot: "/x"\x7d`, the empty bag gives the absent result leniently and
the throw strictly, while `\x7bname: "Ada"\x7d` gives the fully
substituted string `"Hello Ada, path /x"` in both modes. -/
theorem C1_replace_strict_required :
    (∀ (pre post key : List Char) (bag paths : String → Option String),
      (∀ c ∈ pre, c ≠ '{') → key ≠ [] → (∀ c ∈ key, isAlnum c = true) →
      bag ⟨key⟩ = none →
      replace ⟨pre ++ '{' :: '{' :: '!' :: (key ++ '}' :: '}' :: post)⟩ bag paths true =
        .missingPlaceholder ∧
      replace ⟨pre ++ '{' :: '{' :: '!' :: (key ++ '}' :: '}' :: post)⟩ bag paths false =
        .nullResult) ∧
    replace "Hello {{!name}}, path @root" emptyBag rootPaths false = .nullResult ∧
    replace "Hello {{!name}}, path @root" emptyBag rootPaths true = .missingPlaceholder ∧
    replace "Hello {{!name}}, path @root" adaBag rootPaths false = .ok "Hello Ada, path /x" ∧
    replace "Hello {{!name}}, path @root" adaBag rootPaths true = .ok "Hello Ada, path /x" := by
  refine ⟨?_, by decide, by decide, by decide, by decide⟩
  intro pre post key bag paths hpre hkey hka hmiss
  have hbrk := bagScanL_breaked_of_occ bag pre key post hpre hkey hka hmiss
  constructor
  · have := replace_of_breaked ⟨pre ++ '{' :: '{' :: '!' :: (key ++ '}' :: '}' :: post)⟩
      bag paths true hbrk
    simpa using this
  · have := replace_of_breaked ⟨pre ++ '{' :: '{' :: '!' :: (key ++ '}' :: '}' :: post)⟩
      bag paths false hbrk
    simpa using this

/-- Witness for C1 at the concrete template `\x7b\x7b!n\x7d\x7d` and the
empty bag. -/
theorem C1_replace_strict_required_witness :
    replace ⟨[] ++ '{' :: '{' :: '!' :: (['n'] ++ '}' :: '}' :: [])⟩ emptyBag emptyPaths true =
      .missingPlaceholder ∧
    replace ⟨[] ++ '{' :: '{' :: '!' :: (['n'] ++ '}' :: '}' :: [])⟩ emptyBag emptyPaths false =
      .nullResult :=
  C1_replace_strict_required.1 [] [] ['n'] emptyBag emptyPaths
    (by decide) (by decide) (by decide) rfl

/-! ### Claim C10: a required key bound to the empty string is not missing -/

/-- The C10 scenario bag `\x7bk: ""\x7d`. -/
def kEmptyBag : String → Option String := fun k => if k = "k" then some "" else none

/-- A required placeholder whose key is bound to the empty string does
not raise the absent flag; the whole match, decorations included, is
replaced by the empty string. -/
theorem bagScanL_occ_emptyValue (bag : String → Option String)
    (pre d1 key d2 post : List Char)
    (hpre : ∀ c ∈ pre, c ≠ '{')
    (hd1 : ∀ c ∈ d1, isDeco c = true)
    (hkey : key ≠ []) (hka : ∀ c ∈ key, isAlnum c = true)
    (hd2 : ∀ c ∈ d2, isDeco c = true) (hd2b : '}' ∉ d2)
    (hpostb : '}' ∉ post) (hempty : bag ⟨key⟩ = some "") :
    bagScanL bag
        (pre ++ '{' :: '{' :: (d1 ++ '!' :: (key ++ (d2 ++ '}' :: '}' :: post)))) =
      (pre ++ (bagScanL bag post).1, (bagScanL bag post).2) := by
  have hpostw : '}' ∉ post.takeWhile isDeco :=
    fun hm => hpostb ((List.takeWhile_prefix isDeco).subset hm)
  have hmexact := matchBag_req_exact d1 key d2 post hd1 hkey hka hd2 hd2b hpostw
  have hrepl : bagRepl bag ⟨d1, key, true, d2, post⟩ = ([], false) := by
    simp [bagRepl, hempty, truthy]
  rw [bagScanL_append_lit bag pre _ hpre, bagScanL_cons_match hmexact, hrepl]
  simp

/-- C10: in the bag pass of `Executable.replace`, only a key bound to
null/undefined counts as missing: a required placeholder (with arbitrary
decorations) whose key is bound to the empty string does not raise the
absent flag, and the whole placeholder with its decorations is replaced
by the empty string; on the concrete template `"x\x7b\x7b- !k:\x7d\x7dy"`
with bag `\x7bk: ""\x7d`, both strict and lenient mode return the string
`"xy"`. -/
theorem C10_required_empty_not_missing :
    (∀ (pre d1 key d2 post : List Char) (bag : String → Option String),
      (∀ c ∈ pre, c ≠ '{') → (∀ c ∈ d1, isDeco c = true) →
      key ≠ [] → (∀ c ∈ key, isAlnum c = true) →
      (∀ c ∈ d2, isDeco c = true) → '}' ∉ d2 → '}' ∉ post →
      bag ⟨key⟩ = some "" →
      bagScanL bag
          (pre ++ '{' :: '{' :: (d1 ++ '!' :: (key ++ (d2 ++ '}' :: '}' :: post)))) =
        (pre ++ (bagScanL bag post).1, (bagScanL bag post).2)) ∧
    replace "x{{- !k:}}y" kEmptyBag emptyPaths true = .ok "xy" ∧
    replace "x{{- !k:}}y" kEmptyBag emptyPaths false = .ok "xy" := by
  refine ⟨?_, by decide, by decide⟩
  intro pre d1 key d2 post bag hpre hd1 hkey hka hd2 hd2b hpostb hempty
  exact bagScanL_occ_emptyValue bag pre d1 key d2 post hpre hd1 hkey hka hd2 hd2b
    hpostb hempty

/-- Witness for C10 at `x\x7b\x7b- !k:\x7d\x7dy` with `\x7bk: ""\x7d`. -/
theorem C10_required_empty_not_missing_witness :
    bagScanL kEmptyBag
        (['x'] ++ '{' :: '{' :: (['-', ' '] ++ '!' :: (['k'] ++ ([':'] ++ '}' :: '}' :: ['y'])))) =
      (['x'] ++ (bagScanL kEmptyBag ['y']).1, (bagScanL kEmptyBag ['y']).2) :=
  C10_required_empty_not_missing.1 ['x'] ['-', ' '] ['k'] [':'] ['y'] kEmptyBag
    (by decide) (by decide) (by decide) (by decide) (by decide) (by decide)
    (by decide) rfl

/-! ### Claim C9: round-trip of plain placeholders with present keys -/

theorem takeWhile_append_no_brace (l1 l2 : List Char) (h1 : '}' ∉ l1)
    (h2 : '}' ∉ l2.takeWhile isDeco) : '}' ∉ (l1 ++ l2).takeWhile isDeco := by
  induction l1 with
  | nil => simpa using h2
  | cons c l1' ih =>
    have hc : c ≠ '}' := fun he => h1 (he ▸ List.mem_cons_self c l1')
    rw [List.cons_append]
    by_cases hd : isDeco c = true
    · rw [List.takeWhile_cons_of_pos hd]
      intro hm
      rcases List.mem_cons.mp hm with he | hm'
      · exact hc he.symm
      · exact ih (fun hmem => h1 (List.mem_cons_of_mem c hmem)) hm'
    · rw [List.takeWhile_cons_of_neg hd]
      exact List.not_mem_nil '}'

theorem itemOkB_lit {bag : String → Option String} {s : String}
    (h : itemOkB bag (.lit s) = true) :
    ∀ c ∈ s.data, c ≠ '{' ∧ c ≠ '}' ∧ c ≠ '@' := by
  intro c hc
  simp only [itemOkB, List.all_eq_true] at h
  have := h c hc
  simp only [Bool.and_eq_true, bne_iff_ne, ne_eq] at this
  exact ⟨this.1.1, this.1.2, this.2⟩

theorem itemOkB_ph {bag : String → Option String} {k : String}
    (h : itemOkB bag (.ph k) = true) :
    k.data ≠ [] ∧ (∀ c ∈ k.data, isAlnum c = true) ∧
      ∃ v, bag k = some v ∧ ∀ c ∈ v.data, c ≠ '{' ∧ c ≠ '}' ∧ c ≠ '@' := by
  simp only [itemOkB, Bool.and_eq_true] at h
  obtain ⟨⟨hne, hall⟩, hv⟩ := h
  refine ⟨by simpa using hne, by simpa [List.all_eq_true] using hall, ?_⟩
  cases hb : bag k with
  | none => rw [hb] at hv; simp at hv
  | some v =>
    rw [hb] at hv
    refine ⟨v, rfl, ?_⟩
    intro c hc
    simp only [List.all_eq_true] at hv
    have := hv c hc
    simp only [Bool.and_eq_true, bne_iff_ne, ne_eq] at this
    exact ⟨this.1.1, this.1.2, this.2⟩

theorem renderT_takeWhile_no_brace (bag : String → Option String)
    (items : List Item) (hwf : wfItemsB bag items = true) :
    '}' ∉ (renderT items).takeWhile isDeco := by
  induction items with
  | nil => simp [renderT]
  | cons i r ih =>
    have hi : itemOkB bag i = true := by
      simp only [wfItemsB, List.all_eq_true] at hwf
      exact hwf i (List.mem_cons_self i r)
    have hr : wfItemsB bag r = true := by
      simp only [wfItemsB, List.all_eq_true] at hwf ⊢
      exact fun x hx => hwf x (List.mem_cons_of_mem i hx)
    cases i with
    | lit s =>
      show '}' ∉ (s.data ++ renderT r).takeWhile isDeco
      exact takeWhile_append_no_brace s.data (renderT r)
        (fun hm => ((itemOkB_lit hi) '}' hm).2.1 rfl) (ih hr)
    | ph k =>
      show '}' ∉ ('{' :: '{' :: (k.data ++ '}' :: '}' :: renderT r)).takeWhile isDeco
      rw [List.takeWhile_cons_of_pos (by decide), List.takeWhile_cons_of_pos (by decide)]
      obtain ⟨hne, hka, _⟩ := itemOkB_ph hi
      match hd : k.data, hne with
      | c :: k', _ =>
        rw [List.cons_append, List.takeWhile_cons_of_neg
          (by simp [alnum_not_deco (hka c (hd ▸ List.mem_cons_self c k'))])]
        intro hm
        rcases List.mem_cons.mp hm with he | hm'
        · exact absurd he.symm (by decide)
        · rcases List.mem_cons.mp hm' with he | hm''
          · exact absurd he.symm (by decide)
          · exact absurd hm'' (List.not_mem_nil '}')

theorem bagScanL_renderT (bag : String → Option String) (items : List Item)
    (hwf : wfItemsB bag items = true) :
    bagScanL bag (renderT items) = (renderVals bag items, false) := by
  induction items with
  | nil => rfl
  | cons i r ih =>
    have hi : itemOkB bag i = true := by
      simp only [wfItemsB, List.all_eq_true] at hwf
      exact hwf i (List.mem_cons_self i r)
    have hr : wfItemsB bag r = true := by
      simp only [wfItemsB, List.all_eq_true] at hwf ⊢
      exact fun x hx => hwf x (List.mem_cons_of_mem i hx)
    cases i with
    | lit s =>
      show bagScanL bag (s.data ++ renderT r) = _
      rw [bagScanL_append_lit bag s.data (renderT r)
        (fun c hc => ((itemOkB_lit hi) c hc).1), ih hr]
      rfl
    | ph k =>
      obtain ⟨hne, hka, v, hv, _⟩ := itemOkB_ph hi
      have hmatch := matchBag_plain_exact k.data (renderT r) hne hka
        (renderT_takeWhile_no_brace bag r hr)
      show bagScanL bag ('{' :: '{' :: (k.data ++ '}' :: '}' :: renderT r)) = _
      rw [bagScanL_cons_match hmatch, ih hr]
      have hrepl : bagRepl bag ⟨[], k.data, false, [], renderT r⟩ = (v.data, false) := by
        have hkd : (⟨k.data⟩ : String) = k := rfl
        by_cases hv0 : v = ""
        · subst hv0
          simp [bagRepl, hkd, hv, truthy]
        · simp [bagRepl, hkd, hv, truthy, hv0]
      rw [hrepl]
      show (v.data ++ renderVals bag r, false) = _
      simp [renderVals, hv]

theorem renderVals_no_special (bag : String → Option String) (items : List Item)
    (hwf : wfItemsB bag items = true) :
    ∀ c ∈ renderVals bag items, c ≠ '{' ∧ c ≠ '}' ∧ c ≠ '@' := by
  induction items with
  | nil => simp [renderVals]
  | cons i r ih =>
    have hi : itemOkB bag i = true := by
      simp only [wfItemsB, List.all_eq_true] at hwf
      exact hwf i (List.mem_cons_self i r)
    have hr : wfItemsB bag r = true := by
      simp only [wfItemsB, List.all_eq_true] at hwf ⊢
      exact fun x hx => hwf x (List.mem_cons_of_mem i hx)
    cases i with
    | lit s =>
      intro c hc
      rcases List.mem_append.mp hc with hm | hm
      · exact itemOkB_lit hi c hm
      · exact ih hr c hm
    | ph k =>
      obtain ⟨_, _, v, hv, hvok⟩ := itemOkB_ph hi
      intro c hc
      show c ≠ '{' ∧ c ≠ '}' ∧ c ≠ '@'
      have hc' : c ∈ ((bag k).getD "").data ++ renderVals bag r := hc
      rcases List.mem_append.mp hc' with hm | hm
      · rw [hv] at hm
        exact hvok c hm
      · exact ih hr c hm

/-- C9: substituting a template made only of plain placeholders whose
keys are all present in the bag reproduces the template with each
placeholder replaced verbatim by its bag value, and no brace delimiter
remains in the output (in either mode). -/
theorem C9_plain_roundtrip :
    ∀ (items : List Item) (bag paths : String → Option String) (strict : Bool),
      wfItemsB bag items = true →
      replace ⟨renderT items⟩ bag paths strict = .ok ⟨renderVals bag items⟩ ∧
      ∀ c ∈ renderVals bag items, c ≠ '{' ∧ c ≠ '}' := by
  intro items bag paths strict hwf
  have h1 : bagScanL bag (renderT items) = (renderVals bag items, false) :=
    bagScanL_renderT bag items hwf
  have hnospec := renderVals_no_special bag items hwf
  have h2 : pathScanL paths (renderVals bag items) = (renderVals bag items, false) :=
    pathScanL_no_at paths _ (fun c hc => (hnospec c hc).2.2)
  constructor
  · show replace ⟨renderT items⟩ bag paths strict = _
    simp only [replace]
    rw [h1]
    simp only [h2]
    simp
  · exact fun c hc => ⟨(hnospec c hc).1, (hnospec c hc).2.1⟩

/-- Witness for C9 at the template `Hi \x7b\x7bname\x7d\x7d.` with bag
`\x7bname: "Ada"\x7d`. -/
theorem C9_plain_roundtrip_witness :
    replace ⟨renderT [.lit "Hi ", .ph "name", .lit "."]⟩ adaBag emptyPaths true =
      .ok ⟨renderVals adaBag [.lit "Hi ", .ph "name", .lit "."]⟩ ∧
    ∀ c ∈ renderVals adaBag [.lit "Hi ", .ph "name", .lit "."], c ≠ '{' ∧ c ≠ '}' :=
  C9_plain_roundtrip [.lit "Hi ", .ph "name", .lit "."] adaBag emptyPaths true
    (by decide)

/-! ### Claim C2: sequential runner fail-fast -/

theorem forGo_error {ι ε α : Type} (factory : ι → Nat → Except ε α)
    (rest : List ι) (i n : Nat) (e : ε) :
    forGo factory rest i (.error e) n = (.error e, n) := by
  cases rest <;> rfl

theorem forGo_failFast {ι ε α : Type} (factory : ι → Nat → Except ε α)
    (x : ι) (rest : List ι) (e : ε) :
    ∀ (pre : List ι) (i n : Nat) (a : α),
      (∀ j (hj : j < pre.length), ∃ b, factory (pre.get ⟨j, hj⟩) (i + j) = .ok b) →
      factory x (i + pre.length) = .error e →
      forGo factory (pre ++ x :: rest) i (.ok a) n = (.error e, n + pre.length + 1) := by
  intro pre
  induction pre with
  | nil =>
    intro i n a _ herr
    rw [show forGo factory ([] ++ x :: rest) i (.ok a) n =
        forGo factory rest (i + 1) (factory x i) (n + 1) from rfl]
    rw [show factory x i = .error e from by simpa using herr, forGo_error]
    simp
  | cons q pre' ih =>
    intro i n a hok herr
    rw [show forGo factory ((q :: pre') ++ x :: rest) i (.ok a) n =
        forGo factory (pre' ++ x :: rest) (i + 1) (factory q i) (n + 1) from rfl]
    obtain ⟨b, hb⟩ := hok 0 (by simp)
    rw [show factory q i = .ok b from by simpa using hb]
    have hok' : ∀ j (hj : j < pre'.length),
        ∃ c, factory (pre'.get ⟨j, hj⟩) ((i + 1) + j) = .ok c := by
      intro j hj
      obtain ⟨c, hc⟩ := hok (j + 1) (by simpa using Nat.succ_lt_succ hj)
      refine ⟨c, ?_⟩
      have harith : i + (j + 1) = (i + 1) + j := by omega
      rw [← harith]
      exact hc
    have herr' : factory x ((i + 1) + pre'.length) = .error e := by
      have harith : i + (q :: pre').length = (i + 1) + pre'.length := by
        simp only [List.length_cons]; omega
      rw [← harith]
      exact herr
    rw [ih (i + 1) (n + 1) b hok' herr']
    simp only [List.length_cons]
    congr 1
    omega

/-- C2: `Executable.for` runs steps one at a time in declaration order;
an empty step list resolves immediately with no value and with zero
factory invocations; and when every step before position `|pre|`
resolves while the step at position `|pre|` rejects, the overall result
is that rejection and exactly `|pre| + 1` steps were invoked — the steps
after the rejecting one are never invoked. -/
theorem C2_forRun_failFast {ι ε α : Type} :
    (∀ (factory : ι → Nat → Except ε α), forRun [] factory = (.ok none, 0)) ∧
    (∀ (pre : List ι) (x : ι) (rest : List ι) (factory : ι → Nat → Except ε α)
      (e : ε),
      (∀ j (hj : j < pre.length), ∃ b, factory (pre.get ⟨j, hj⟩) j = .ok b) →
      factory x pre.length = .error e →
      forRun (pre ++ x :: rest) factory = (.error e, pre.length + 1)) := by
  refine ⟨fun _ => rfl, ?_⟩
  intro pre x rest factory e hok herr
  cases pre with
  | nil =>
    rw [show forRun ([] ++ x :: rest) factory =
        forGo factory rest 1 (factory x 0) 1 from rfl]
    rw [show factory x 0 = .error e from by simpa using herr, forGo_error]
    rfl
  | cons q pre' =>
    rw [show forRun ((q :: pre') ++ x :: rest) factory =
        forGo factory (pre' ++ x :: rest) 1 (factory q 0) 1 from rfl]
    obtain ⟨b, hb⟩ := hok 0 (by simp)
    rw [show factory q 0 = .ok b from by simpa using hb]
    have hok' : ∀ j (hj : j < pre'.length),
        ∃ c, factory (pre'.get ⟨j, hj⟩) (1 + j) = .ok c := by
      intro j hj
      obtain ⟨c, hc⟩ := hok (j + 1) (by simpa using Nat.succ_lt_succ hj)
      refine ⟨c, ?_⟩
      have harith : (1 : Nat) + j = j + 1 := by omega
      rw [harith]
      exact hc
    have herr' : factory x (1 + pre'.length) = .error e := by
      have harith : (1 : Nat) + pre'.length = (q :: pre').length := by
        simp only [List.length_cons]; omega
      rw [harith]
      exact herr
    rw [forGo_failFast factory x rest e pre' 1 1 b hok' herr']
    simp only [List.length_cons]
    congr 1
    omega

/-- Witness for C2: steps `[s1, s2, s3]` where `s2` rejects — `s3` is
never invoked (two invocations happen) and the result is the rejection. -/
theorem C2_forRun_failFast_witness :
    forRun ([0] ++ 1 :: [2])
        (fun v _ => if v = 1 then (.error () : Except Unit Nat) else .ok v) =
      (.error (), 1 + 1) :=
  C2_forRun_failFast.2 [0] 1 [2]
    (fun v _ => if v = 1 then (.error () : Except Unit Nat) else .ok v) ()
    (fun j hj => ⟨0, by
      match j, hj with
      | 0, _ => rfl⟩)
    rfl

/-! ### Bag lemmas -/

theorem bagGet_bagSet_self {α : Type} (b : Bag α) (n : String) (v : α) :
    bagGet (bagSet b n v) n = some v := by
  induction b with
  | nil => simp [bagGet, bagSet]
  | cons q r ih =>
    obtain ⟨k', v'⟩ := q
    by_cases hk : k' = n
    · simp [bagGet, bagSet, hk]
    · simp [bagGet, bagSet, hk, ih]

theorem bagSet_bagSet_self {α : Type} (b : Bag α) (n : String) (x y : α) :
    bagSet (bagSet b n x) n y = bagSet b n y := by
  induction b with
  | nil => simp [bagSet]
  | cons q r ih =>
    obtain ⟨k', v'⟩ := q
    by_cases hk : k' = n
    · simp [bagSet, hk]
    · simp [bagSet, hk, ih]

theorem bagSet_append_of_fresh {α : Type} (b : Bag α) (n : String) (v : α)
    (h : ∀ q ∈ b, q.1 ≠ n) : bagSet b n v = b ++ [(n, v)] := by
  induction b with
  | nil => rfl
  | cons q r ih =>
    obtain ⟨k', v'⟩ := q
    have hk : k' ≠ n := h (k', v') (List.mem_cons_self _ r)
    simp only [bagSet, if_neg hk, List.cons_append]
    rw [ih (fun x hx => h x (List.mem_cons_of_mem _ hx))]

/-! ### Claim C3: form fields in order, store-then-resolve -/

/-- C3 (part): the form loop handles fields strictly in declaration
order: an accepted answer stores the raw value and immediately
re-resolves the transformer before the next field starts. -/
theorem formRun_step {ε : Type} (paths : String → Option String) (f : Field)
    (rest : List Field) (bag : Bag String) (stream : List (Except ε String))
    (ans : String) (hans : fieldRequired f = true → ans ≠ "") :
    formRun paths (f :: rest) bag (.ok ans :: stream) =
      formRun paths rest (storeResolve paths bag f ans) stream := by
  have hcond : (fieldRequired f && ans == "") = false := by
    cases hreq : fieldRequired f
    · rfl
    · simp [hans hreq]
  have hr : readlineWhile (fieldRequired f) ((.ok ans : Except ε String) :: stream) =
      some (.ok ans, stream) := by
    unfold readlineWhile
    rw [hcond]
    simp
  simp only [formRun, hr]

/-- C3 (part): with no declared transformer and an answer free of
brace and path-macro characters, the default transformer stores the raw
value verbatim. -/
theorem storeResolve_default_verbatim (paths : String → Option String)
    (bag : Bag String) (name prompt ans : String)
    (hq : startsWithChar name '?' = false)
    (hname : name.data ≠ []) (hka : ∀ c ∈ name.data, isAlnum c = true)
    (hans : ans ≠ "") (hat : ∀ c ∈ ans.data, c ≠ '@') :
    storeResolve paths bag ⟨name, prompt, none⟩ ans = bagSet bag name ans := by
  have hfn : fieldName ⟨name, prompt, none⟩ = name := by
    simp [fieldName, hq]
  have hdata : ("\x7b\x7b" ++ name ++ "\x7d\x7d").data =
      '{' :: '{' :: (name.data ++ '}' :: '}' :: []) := by
    simp [String.data_append]
  have hmatch := matchBag_plain_exact name.data [] hname hka (by simp)
  have hget : bagGet (bagSet bag name ans) name = some ans :=
    bagGet_bagSet_self bag name ans
  have hrepl : bagRepl (bagGet (bagSet bag name ans)) ⟨[], name.data, false, [], []⟩ =
      (ans.data, false) := by
    have hkd : (⟨name.data⟩ : String) = name := rfl
    simp [bagRepl, hkd, hget, truthy, hans]
  have hscan : bagScanL (bagGet (bagSet bag name ans))
      ('{' :: '{' :: (name.data ++ '}' :: '}' :: [])) = (ans.data, false) := by
    rw [bagScanL_cons_match hmatch, hrepl]
    simp [bagScanL, bagScanF]
  have hpath : pathScanL paths ans.data = (ans.data, false) :=
    pathScanL_no_at paths ans.data hat
  have hreplace : replace ("\x7b\x7b" ++ name ++ "\x7d\x7d") (bagGet (bagSet bag name ans))
      paths false = .ok ans := by
    simp only [replace, hdata, hscan]
    simp only [hpath]
    simp
  simp only [storeResolve, hfn, Option.getD]
  rw [hreplace]
  simp only [beq_iff_eq, if_neg hans]
  exact bagSet_bagSet_self bag name ans ans

/-- C3: fields are collected strictly in declaration order with the raw
answer stored first and the transformer re-resolved against the updated
bag (the default transformer keeping the raw answer verbatim), and the
spec scenario `[["title","Title?"], ["slug","Slug?","\x7b\x7btitle\x7d\x7d-slug"]]`
with answers `"Hello"`, `"Hello"` produces the bag
`\x7btitle: "Hello", slug: "Hello-slug"\x7d`. -/
theorem C3_form_store_then_resolve :
    (∀ (ε : Type) (paths : String → Option String) (f : Field) (rest : List Field)
      (bag : Bag String) (stream : List (Except ε String)) (ans : String),
      (fieldRequired f = true → ans ≠ "") →
      formRun paths (f :: rest) bag (.ok ans :: stream) =
        formRun paths rest (storeResolve paths bag f ans) stream) ∧
    (∀ (paths : String → Option String) (bag : Bag String)
      (name prompt ans : String),
      startsWithChar name '?' = false → name.data ≠ [] →
      (∀ c ∈ name.data, isAlnum c = true) → ans ≠ "" →
      (∀ c ∈ ans.data, c ≠ '@') →
      storeResolve paths bag ⟨name, prompt, none⟩ ans = bagSet bag name ans) ∧
    formRun (ε := Unit) emptyPaths
        [⟨"title", "Title?", none⟩, ⟨"slug", "Slug?", some "{{title}}-slug"⟩] []
        [.ok "Hello", .ok "Hello"] =
      some ⟨[("title", "Hello"), ("slug", "Hello-slug")], none⟩ := by
  refine ⟨?_, ?_, by decide⟩
  · intro ε paths f rest bag stream ans hans
    exact formRun_step paths f rest bag stream ans hans
  · intro paths bag name prompt ans hq hname hka hans hat
    exact storeResolve_default_verbatim paths bag name prompt ans hq hname hka
      hans hat

/-- Witness for C3: one field step on a concrete form. -/
theorem C3_form_store_then_resolve_witness :
    formRun (ε := Unit) emptyPaths [⟨"a", "A?", none⟩] [] [.ok "x"] =
      formRun (ε := Unit) emptyPaths [] (storeResolve emptyPaths [] ⟨"a", "A?", none⟩ "x") [] :=
  C3_form_store_then_resolve.1 Unit emptyPaths ⟨"a", "A?", none⟩ [] [] [] "x"
    (fun _ => by decide)

/-! ### Claim C7: read failure aborts, but the partial bag is returned -/

/-- C7 counterexample: on fields `a`, `b` with the read of `b` failing,
`Executable.form` returns the error together with the partially filled
bag `\x7ba: "x"\x7d` — the partial bag is part of the result object. -/
theorem C7_counterexample :
    formRun (ε := Unit) emptyPaths [⟨"a", "A?", none⟩, ⟨"b", "B?", none⟩] []
        [.ok "x", .error ()] =
      some ⟨[("a", "x")], some ()⟩ ∧
    ([("a", "x")] : Bag String) ≠ [] := by
  refine ⟨by decide, by decide⟩

/-- C7 (amended): a read failure on any field aborts the whole
collection — later fields are never processed and the failing field is
not stored — and propagates the error, but the result carries the
partial bag collected so far rather than no bag. -/
theorem C7_read_failure_aborts (ε : Type) (paths : String → Option String)
    (f : Field) (rest : List Field) (bag : Bag String)
    (stream : List (Except ε String)) (e : ε) :
    formRun paths (f :: rest) bag (.error e :: stream) = some ⟨bag, some e⟩ := rfl

/-! ### Claims C4, C5, C6: argument binding -/

theorem drop_tail_comm {α : Type} (args : List α) (i : Nat) :
    args.tail.drop i = args.drop (i + 1) := by
  rw [← List.drop_one, List.drop_drop, Nat.add_comm]

theorem bindGo_missing :
    ∀ (params : List Param) (args : List String) (acc : Bag (Option String))
      (ov : List String) (i : Nat) (h : i < params.length),
      (params.get ⟨i, h⟩).required = true →
      resolveVal (params.get ⟨i, h⟩) ((args.drop i).head?) = none →
      (∀ j (hj : j < i),
        ¬((params.get ⟨j, Nat.lt_trans hj h⟩).required = true ∧
          resolveVal (params.get ⟨j, Nat.lt_trans hj h⟩) ((args.drop j).head?) = none)) →
      bindGo params args acc ov = .missing (params.get ⟨i, h⟩).name := by
  intro params
  induction params with
  | nil =>
    intro args acc ov i h
    exact absurd h (by simp)
  | cons p ps ih =>
    intro args acc ov i h hreq hres hprev
    match i with
    | 0 =>
      have hv : resolveVal p args.head? = none := by simpa using hres
      have hr : p.required = true := by simpa using hreq
      show bindGo (p :: ps) args acc ov = .missing ((p :: ps).get ⟨0, h⟩).name
      simp only [bindGo, hv, hr]
      simp
    | i + 1 =>
      have h0 : ¬(p.required = true ∧ resolveVal p args.head? = none) := by
        have := hprev 0 (Nat.succ_pos i)
        simpa using this
      have hlen : i < ps.length := by
        simp only [List.length_cons] at h
        omega
      have hreq' : (ps.get ⟨i, hlen⟩).required = true := by simpa using hreq
      have hres' : resolveVal (ps.get ⟨i, hlen⟩) ((args.tail.drop i).head?) = none := by
        rw [drop_tail_comm]
        simpa using hres
      have hprev' : ∀ j (hj : j < i),
          ¬((ps.get ⟨j, Nat.lt_trans hj hlen⟩).required = true ∧
            resolveVal (ps.get ⟨j, Nat.lt_trans hj hlen⟩)
              ((args.tail.drop j).head?) = none) := by
        intro j hj
        have := hprev (j + 1) (by omega)
        rw [drop_tail_comm]
        simpa using this
      show bindGo (p :: ps) args acc ov = .missing ((p :: ps).get ⟨i + 1, h⟩).name
      simp only [bindGo, if_neg h0]
      exact ih args.tail _ ov i hlen hreq' hres' hprev'

/-- C4: a required parameter that resolves to null after fallback
substitution (no argument or empty argument, and no fallback) makes
binding fail with an error naming the first such parameter, and the
command body never executes. -/
theorem C4_required_missing_aborts {β : Type} :
    ∀ (params : List Param) (args : List String)
      (body : Bag (Option String) → List String → β) (i : Nat)
      (h : i < params.length),
      (params.get ⟨i, h⟩).required = true →
      resolveVal (params.get ⟨i, h⟩) ((args.drop i).head?) = none →
      (∀ j (hj : j < i),
        ¬((params.get ⟨j, Nat.lt_trans hj h⟩).required = true ∧
          resolveVal (params.get ⟨j, Nat.lt_trans hj h⟩) ((args.drop j).head?) = none)) →
      bindArgs params args = .missing (params.get ⟨i, h⟩).name ∧
      run params args body = .bindFail (params.get ⟨i, h⟩).name := by
  intro params args body i h hreq hres hprev
  have hne : params.isEmpty = false := by
    cases params with
    | nil => exact absurd h (by simp)
    | cons q r => rfl
  have hbind : bindArgs params args = .missing (params.get ⟨i, h⟩).name := by
    unfold bindArgs
    rw [hne]
    simp only [Bool.false_eq_true, if_false]
    exact bindGo_missing params args [] [] i h hreq hres hprev
  refine ⟨hbind, ?_⟩
  unfold run
  rw [hbind]

/-- Witness for C4: declaration `['!name']` with no arguments. -/
theorem C4_required_missing_aborts_witness :
    bindArgs [paramOf ⟨"!name", none, none, none⟩] [] = .missing "name" ∧
    run [paramOf ⟨"!name", none, none, none⟩] [] (fun _ _ => ()) = .bindFail "name" :=
  C4_required_missing_aborts [paramOf ⟨"!name", none, none, none⟩] []
    (fun _ _ => ()) 0 (by decide) (by decide) (by decide)
    (fun j hj => absurd hj (Nat.not_lt_zero j))

/-- The bound bag that the binding loop produces on success: each
parameter in declaration order, paired with its resolved value. -/
def zipBound : List Param → List String → Bag (Option String)
  | [], _ => []
  | p :: ps, args => (p.name, resolveVal p args.head?) :: zipBound ps args.tail

theorem bindGo_success_bound :
    ∀ (params : List Param) (args : List String) (acc : Bag (Option String))
      (ov : List String) (bound : Bag (Option String)) (ovr : List String),
      (∀ q ∈ acc, ∀ pp ∈ params, q.1 ≠ pp.name) →
      (params.map Param.name).Nodup →
      bindGo params args acc ov = .success bound ovr →
      bound = acc ++ zipBound params args := by
  intro params
  induction params with
  | nil =>
    intro args acc ov bound ovr _ _ hsucc
    have : acc = bound := by
      cases hsucc
      rfl
    simp [zipBound, ← this]
  | cons p ps ih =>
    intro args acc ov bound ovr hdisj hnodup hsucc
    by_cases hc : p.required = true ∧ resolveVal p args.head? = none
    · exfalso
      simp only [bindGo, if_pos hc] at hsucc
      exact BindResult.noConfusion hsucc
    · simp only [bindGo, if_neg hc] at hsucc
      have hfresh : ∀ q ∈ acc, q.1 ≠ p.name :=
        fun q hq => hdisj q hq p (List.mem_cons_self p ps)
      rw [bagSet_append_of_fresh acc p.name _ hfresh] at hsucc
      have hnodup' : (ps.map Param.name).Nodup := by
        simp only [List.map_cons, List.nodup_cons] at hnodup
        exact hnodup.2
      have hhead : p.name ∉ ps.map Param.name := by
        simp only [List.map_cons, List.nodup_cons] at hnodup
        exact hnodup.1
      have hdisj' : ∀ q ∈ acc ++ [(p.name, resolveVal p args.head?)],
          ∀ pp ∈ ps, q.1 ≠ pp.name := by
        intro q hq pp hpp
        rcases List.mem_append.mp hq with hm | hm
        · exact hdisj q hm pp (List.mem_cons_of_mem p hpp)
        · have hq2 : q = (p.name, resolveVal p args.head?) := by simpa using hm
          subst hq2
          show p.name ≠ pp.name
          intro he
          exact hhead (he ▸ List.mem_map_of_mem Param.name hpp)
      have := ih args.tail _ ov bound ovr hdisj' hnodup' hsucc
      rw [this, zipBound]
      simp

theorem bagGet_zipBound :
    ∀ (params : List Param) (args : List String) (i : Nat) (h : i < params.length),
      (params.map Param.name).Nodup →
      bagGet (zipBound params args) (params.get ⟨i, h⟩).name =
        some (resolveVal (params.get ⟨i, h⟩) ((args.drop i).head?)) := by
  intro params
  induction params with
  | nil =>
    intro args i h
    exact absurd h (by simp)
  | cons p ps ih =>
    intro args i h hnodup
    match i with
    | 0 =>
      show bagGet ((p.name, resolveVal p args.head?) :: zipBound ps args.tail)
          p.name = _
      simp [bagGet, List.drop_zero]
    | i + 1 =>
      have hlen : i < ps.length := by
        simp only [List.length_cons] at h
        omega
      have hne : p.name ≠ (ps.get ⟨i, hlen⟩).name := by
        simp only [List.map_cons, List.nodup_cons] at hnodup
        intro he
        exact hnodup.1 (he ▸ List.mem_map_of_mem Param.name (ps.get_mem i hlen))
      have hnodup' : (ps.map Param.name).Nodup := by
        simp only [List.map_cons, List.nodup_cons] at hnodup
        exact hnodup.2
      show bagGet ((p.name, resolveVal p args.head?) :: zipBound ps args.tail)
          ((p :: ps).get ⟨i + 1, h⟩).name = _
      have hget : ((p :: ps).get ⟨i + 1, h⟩) = ps.get ⟨i, hlen⟩ := rfl
      rw [hget]
      simp only [bagGet, if_neg hne]
      rw [ih args.tail i hlen hnodup', drop_tail_comm]

/-- C5: on a successful binding the bound bag is exactly the declared
parameters paired with their resolved values; a missing trailing
position receives the declared fallback (or stays absent without one);
and the spec scenario `[['type', null, ['standard','update','speed'],
'standard']]` with zero arguments binds `args.type` to `'standard'`. -/
theorem C5_fallback_fills_missing :
    (∀ (params : List Param) (args : List String) (bound : Bag (Option String))
      (ov : List String),
      (params.map Param.name).Nodup →
      bindArgs params args = .success bound ov →
      bound = zipBound params args ∧
      ∀ (i : Nat) (h : i < params.length), args.length ≤ i →
        bagGet bound (params.get ⟨i, h⟩).name = some (params.get ⟨i, h⟩).fallback) ∧
    bindArgs [paramOf ⟨"type", none, some ["standard", "update", "speed"],
        some "standard"⟩] [] =
      .success [("type", some "standard")] [] := by
  refine ⟨?_, by decide⟩
  intro params args bound ov hnodup hsucc
  have hbound : bound = zipBound params args := by
    cases hp : params with
    | nil =>
      subst hp
      unfold bindArgs at hsucc
      simp only [List.isEmpty_nil, if_pos] at hsucc
      cases hsucc
      rfl
    | cons q r =>
      subst hp
      unfold bindArgs at hsucc
      simp only [List.isEmpty_cons, Bool.false_eq_true, if_false] at hsucc
      exact bindGo_success_bound (q :: r) args [] [] bound ov (by simp) hnodup hsucc
  refine ⟨hbound, ?_⟩
  intro i h hge
  have hdrop : (args.drop i).head? = none := by
    rw [List.drop_eq_nil_iff.mpr hge]
    rfl
  rw [hbound, bagGet_zipBound params args i h hnodup, hdrop]
  rfl

/-- Witness for C5 at the scenario parameter list. -/
theorem C5_fallback_fills_missing_witness :
    [("type", some "standard")] =
      zipBound [paramOf ⟨"type", none, some ["standard", "update", "speed"],
        some "standard"⟩] [] ∧
    bagGet [("type", (some "standard" : Option String))] "type" =
      some (some "standard") :=
  ⟨(C5_fallback_fills_missing.1
      [paramOf ⟨"type", none, some ["standard", "update", "speed"], some "standard"⟩]
      [] [("type", some "standard")] [] (by decide) (by decide)).1,
    (C5_fallback_fills_missing.1
      [paramOf ⟨"type", none, some ["standard", "update", "speed"], some "standard"⟩]
      [] [("type", some "standard")] [] (by decide) (by decide)).2 0 (by decide)
      (by decide)⟩

theorem bindGo_success_overflow :
    ∀ (params : List Param) (args : List String) (acc : Bag (Option String))
      (ov : List String) (bound : Bag (Option String)) (ovr : List String),
      bindGo params args acc ov = .success bound ovr →
      ovr = ov ++ args.drop params.length := by
  intro params
  induction params with
  | nil =>
    intro args acc ov bound ovr hsucc
    cases hsucc
    simp
  | cons p ps ih =>
    intro args acc ov bound ovr hsucc
    by_cases hc : p.required = true ∧ resolveVal p args.head? = none
    · exfalso
      simp only [bindGo, if_pos hc] at hsucc
      exact BindResult.noConfusion hsucc
    · simp only [bindGo, if_neg hc] at hsucc
      have := ih args.tail _ ov bound ovr hsucc
      rw [this, drop_tail_comm]
      simp

/-- C6 counterexample: a command with an empty declared parameter list
(`version.params = []` is such a command) discards every raw argument —
the overflow sequence stays empty instead of receiving `"x"`. -/
theorem C6_counterexample :
    bindArgs [] ["x"] = .success [] [] ∧ ([] : List String) ≠ ["x"] := by
  refine ⟨by decide, by decide⟩

/-- C6 (amended): when the command declares at least one parameter,
every raw argument beyond the declared parameter count is preserved in
arrival order in the overflow sequence of a successful binding; with an
empty declared parameter list the binding loop is skipped entirely and
the extra arguments are discarded. -/
theorem C6_overflow_preserved :
    ∀ (params : List Param) (args : List String) (bound : Bag (Option String))
      (ov : List String),
      params ≠ [] →
      bindArgs params args = .success bound ov →
      ov = args.drop params.length := by
  intro params args bound ov hne hsucc
  unfold bindArgs at hsucc
  have : params.isEmpty = false := by
    cases params with
    | nil => exact absurd rfl hne
    | cons q r => rfl
  rw [this] at hsucc
  simp only [Bool.false_eq_true, if_false] at hsucc
  have := bindGo_success_overflow params args [] [] bound ov hsucc
  simpa using this

/-- Witness for C6 (amended): one declared parameter, three raw
arguments — the overflow keeps the last two. -/
theorem C6_overflow_preserved_witness :
    ["b", "c"] = ["a", "b", "c"].drop 1 :=
  C6_overflow_preserved [paramOf ⟨"p", none, none, none⟩] ["a", "b", "c"]
    [("p", some "a")] ["b", "c"] (by simp) (by decide)

/-! ### Claim C8: last registration wins -/

/-- C8: the command registry write is last-wins — registering the same
name twice resolves to the second entry; concretely, two directory
sources both declaring `build` resolve to the second source's file, and
an extension directory declaring `generate.js` overrides the built-in
native `generate` command registered earlier by the `commands` getter. -/
theorem C8_last_registration_wins :
    (∀ (r : Bag CmdEntry) (n : String) (e1 e2 : CmdEntry),
      bagGet (bagSet (bagSet r n e1) n e2) n = some e2) ∧
    bagGet (initCommands (initCommands [] (.dir "d1" ["build.js"]))
        (.dir "d2" ["build.sh"])) "build" = some (.script "d2/build.sh") ∧
    bagGet (buildCommands (some ("ext", ["generate.js"]))) "generate" =
      some (.script "ext/generate.js") := by
  refine ⟨?_, by decide, by decide⟩
  intro r n e1 e2
  rw [bagSet_bagSet_self, bagGet_bagSet_self]

end Losh
